import Mathlib

/-!
Verification of the motorengine QuerySet layer (src/motorengine/queryset.py)
against its specification.  The Python source is embedded shallowly: pure
helper functions become Lean functions, the mutable QuerySet object becomes
an explicit state record threaded through the operations, store calls are
recorded as values of an effect type, and code that raises becomes
Except-valued.  Definitions follow the source file; the two collaborators
that are not part of the source file (the QueryFieldList projection
container and the filter-expression compiler) are modelled from the
specification and marked as such in their doc comments.
-/

set_option autoImplicit false

/-- Decidable equality for Except values, used to evaluate the embedded
operations on concrete inputs. -/
instance {ε α : Type} [DecidableEq ε] [DecidableEq α] : DecidableEq (Except ε α) := fun
  | .error e, .error f =>
    match decEq e f with
    | isTrue h => isTrue (h ▸ rfl)
    | isFalse h => isFalse (fun c => h (Except.error.inj c))
  | .error _, .ok _ => isFalse (fun c => Except.noConfusion c)
  | .ok _, .error _ => isFalse (fun c => Except.noConfusion c)
  | .ok a, .ok b =>
    match decEq a b with
    | isTrue h => isTrue (h ▸ rfl)
    | isFalse h => isFalse (fun c => h (Except.ok.inj c))

namespace Motorengine

/-- DEFAULT_LIMIT constant from queryset.py line 21. -/
def DEFAULT_LIMIT : Nat := 1000

/-- Projection values. ONLY and EXCLUDE are the two QueryFieldList constants
used by only() and exclude(); sliceSpec models the `$slice` dictionary that
the fields() operator syntax can produce. -/
inductive ProjValue where
  | only
  | exclude
  | sliceSpec (n : Int)
deriving DecidableEq

/-- Field type as dispatched on by _check_valid_field_name_to_project:
EmbeddedDocumentField, ListField over an embedded type, ListField over a
reference type, ListField over anything else, ReferenceField, and every
other (scalar) field.  Embedded types carry their own field registry. -/
inductive FType where
  | scalar
  | embedded (fields : List (String × FType))
  | listEmbedded (fields : List (String × FType))
  | listScalar
  | listReference
  | reference

/-- A field descriptor from the document class registry (_fields): its type,
its storage name (db_field) and the unique/sparse index flags. -/
structure FieldDecl where
  ftype : FType
  db_field : String
  unique : Bool
  sparse : Bool

/-- A document class as seen by the QuerySet: class name, field registry
(_fields, an ordered name-to-descriptor mapping) and the __lazy__ flag. -/
structure DocKlass where
  name : String
  fields : List (String × FieldDecl)
  lazy : Bool

/-- The name-to-type view of a document class registry, used by the dotted
path walk. -/
def registryOf (k : DocKlass) : List (String × FType) :=
  k.fields.map (fun p => (p.1, p.2.ftype))

/-- Association lookup in a field registry (the `in obj._fields` membership
test plus `obj._fields[...]` access). -/
def lookupField (reg : List (String × FType)) (fname : String) : Option FType :=
  match reg with
  | [] => none
  | (n, t) :: rest => if n = fname then some t else lookupField rest fname

/-- Association lookup of the full descriptor in a class registry. -/
def lookupDecl (k : DocKlass) (fname : String) : Option FieldDecl :=
  match k.fields with
  | l => lookupDeclAux l fname
where lookupDeclAux : List (String × FieldDecl) → String → Option FieldDecl
  | [], _ => none
  | (n, d) :: rest, f => if n = f then some d else lookupDeclAux rest f

/-- Join a list of strings with a separator, the Python sep.join(parts).
Implemented by structural recursion so that it evaluates inside the
kernel. -/
def joinWith (sep : String) : List String → String
  | [] => ""
  | [x] => x
  | x :: xs => x ++ sep ++ joinWith sep xs

/-- Dotted join, the Python `'.'.join(parts)`. -/
def joinDot (parts : List String) : String := joinWith "." parts

/-- Character-level split on the dot character, the Python s.split('.'),
on the character list of a string. -/
def splitDotChars : List Char → List (List Char)
  | [] => [[]]
  | c :: rest =>
    if c = '.' then [] :: splitDotChars rest
    else
      match splitDotChars rest with
      | [] => [[c]]
      | g :: gs => (c :: g) :: gs

/-- Dotted split, the component sequence of a field path (Python
field_name.split('.')). -/
def splitDot (s : String) : List String := (splitDotChars s.data).map String.mk

/-- Character-level split on the two-character separator `__`, the Python
key.split('__'), greedy left to right. -/
def splitUnderscoreChars : List Char → List (List Char)
  | [] => [[]]
  | '_' :: '_' :: rest => [] :: splitUnderscoreChars rest
  | c :: rest =>
    match splitUnderscoreChars rest with
    | [] => [[c]]
    | g :: gs => (c :: g) :: gs

/-- The key normalization in fields(): `'.'.join(key.split('__'))`.  The
`slice__` operator prefix handling is not modelled (no claim exercises the
slice operator); for every key without a `__` separator this is the
identity, exactly as in the source. -/
def underscoreToDot (key : String) : String :=
  joinWith "." ((splitUnderscoreChars key.data).map String.mk)

/-- Membership of the dot character in a field name, the Python
`'.' in field_name`. -/
def containsDot (s : String) : Bool := s.data.contains '.'

/-- Error message raised by _check_valid_field_name_to_project (quoting of
the interpolated names is omitted). -/
def invalidFieldMsg (field_name klassName : String) : String :=
  "Invalid field " ++ field_name ++ ": Field not found in " ++ klassName ++ "."

/-- Result of a successful projection check: the (possibly rewritten) field
name, the (possibly rewritten) projection value, and the entries written to
the _reference_loaded_fields side table. -/
structure CheckResult where
  name : String
  value : ProjValue
  refUpdates : List (String × String × ProjValue)
deriving DecidableEq

/-- _fill_reference_loaded_fields: when the remaining tail is non-empty the
nested projection is registered under the path consumed so far and the
reference field itself is forced to ONLY; otherwise the original name and
value are returned.  The tail is represented by its component list, where
`[]` stands for Python None and `[""]` for the empty string, both falsy. -/
def fillReferenceLoadedFields (head : List String) (tailComps : List String)
    (field_name : String) (value : ProjValue) : CheckResult :=
  if tailComps = [] ∨ tailComps = [""] then
    { name := field_name, value := value, refUpdates := [] }
  else
    { name := joinDot head, value := ProjValue.only,
      refUpdates := [(joinDot head, joinDot tailComps, value)] }

/-- The while loop of _check_valid_field_name_to_project.  `comps` is the
component list of the remaining tail (`[]` for None, `[""]` for the empty
string, both of which stop the loop as falsy), `head` the components already
consumed, `obj` the registry of the current type (none once the walk passed
a scalar or list-of-scalar field). -/
def checkWalk (root : DocKlass) (field_name : String) (value : ProjValue)
    (comps : List String) (head : List String)
    (obj : Option (List (String × FType))) : Except String CheckResult :=
  match comps with
  | [] => .ok { name := field_name, value := value, refUpdates := [] }
  | c :: rest =>
    if c = "" ∧ rest = [] then
      .ok { name := field_name, value := value, refUpdates := [] }
    else
    match obj with
    | none => .error (invalidFieldMsg field_name root.name)
    | some reg =>
      match lookupField reg c with
      | none => .error (invalidFieldMsg field_name root.name)
      | some ft =>
        match ft with
        | .embedded fs => checkWalk root field_name value rest (head ++ [c]) (some fs)
        | .listEmbedded fs => checkWalk root field_name value rest (head ++ [c]) (some fs)
        | .listReference => .ok (fillReferenceLoadedFields (head ++ [c]) rest field_name value)
        | .reference => .ok (fillReferenceLoadedFields (head ++ [c]) rest field_name value)
        | .listScalar => checkWalk root field_name value rest (head ++ [c]) none
        | .scalar => checkWalk root field_name value rest (head ++ [c]) none

/-- _check_valid_field_name_to_project: fast path for an undotted name that
is `_id` or a declared root field, otherwise the component walk. -/
def checkValidFieldNameToProject (k : DocKlass) (field_name : String)
    (value : ProjValue) : Except String CheckResult :=
  if containsDot field_name = false ∧
      (field_name = "_id" ∨ (lookupField (registryOf k) field_name).isSome) then
    .ok { name := field_name, value := value, refUpdates := [] }
  else
    checkWalk k field_name value (splitDot field_name) [] (some (registryOf k))

/-- Modelled from the spec: the QueryFieldList class lives in
query_builder/field_list.py, which is not part of the source under
verification; spec section 3 (Projection Set) describes it as a mapping
from storage-level field name to a projection value, plus an only-mode
flag (true once any INCLUDE was explicitly requested) and an
always-include set, merged monotonically (union) across chained calls. -/
structure QueryFieldList where
  fields : Finset (String × ProjValue)
  only_called : Bool
  always_include : Finset String
deriving DecidableEq

/-- Modelled from the spec: the QueryFieldList constructor
QueryFieldList(fields, value, _only_called) pairs every given name with the
given projection value. -/
def qflOfList (names : List String) (value : ProjValue) (oc : Bool) : QueryFieldList :=
  { fields := (names.map (fun n => (n, value))).toFinset,
    only_called := oc,
    always_include := ∅ }

/-- Modelled from the spec: `+` on Projection Sets merges monotonically
(union), and only-mode is sticky once requested. -/
def qflAdd (a b : QueryFieldList) : QueryFieldList :=
  { fields := a.fields ∪ b.fields,
    only_called := a.only_called || b.only_called,
    always_include := a.always_include ∪ b.always_include }

/-- The empty QueryFieldList, the `QueryFieldList()` of `QuerySet.__init__`. -/
def qflEmpty : QueryFieldList :=
  { fields := ∅, only_called := false, always_include := ∅ }

/-- A field handle object (a BaseField instance used as a field
specification): carries the logical name, the storage name and the field
type. -/
structure FieldHandle where
  name : String
  db_field : String
  ftype : FType

/-- A field specification: either a plain string name or a field handle. -/
inductive FieldSpec where
  | byName (s : String)
  | byHandle (h : FieldHandle)

/-- Name extraction from a field specification, the
`if isinstance(field_name, BaseField): field_name = field_name.name`
pattern of only()/exclude()/order_by(). -/
def specName : FieldSpec → String
  | .byName s => s
  | .byHandle h => h.name

/-- The accumulated QuerySet state: document class, filters, skip/limit,
sort pairs, Projection Set and reference projection side table.  Filters
are modelled as the list of compiled (storage name, value) comparison
pairs, conjoined by accumulation; the Q expression tree itself is an
external collaborator. -/
structure QuerySet where
  klass : DocKlass
  filters : List (String × Int)
  limitVal : Option Nat
  skipVal : Option Nat
  order_fields : List (String × Int)
  loaded_fields : QueryFieldList
  reference_loaded_fields : List (String × List (String × ProjValue))

/-- Fresh QuerySet for a document class, the `QuerySet.__init__`. -/
def initQuerySet (k : DocKlass) : QuerySet :=
  { klass := k, filters := [], limitVal := none, skipVal := none,
    order_fields := [], loaded_fields := qflEmpty, reference_loaded_fields := [] }

/-- Dictionary-style update of an association list: overwrite in place when
the key is present, append otherwise (CPython dict assignment). -/
def assocSet (m : List (String × ProjValue)) (k : String) (v : ProjValue) :
    List (String × ProjValue) :=
  match m with
  | [] => [(k, v)]
  | (k0, v0) :: rest => if k0 = k then (k, v) :: rest else (k0, v0) :: assocSet rest k v

/-- The write `self._reference_loaded_fields[name][tail] = value` of
_fill_reference_loaded_fields, creating the inner dictionary when absent. -/
def refMapSet (m : List (String × List (String × ProjValue))) (nm tl : String)
    (v : ProjValue) : List (String × List (String × ProjValue)) :=
  match m with
  | [] => [(nm, [(tl, v)])]
  | (n0, inner) :: rest =>
    if n0 = nm then (n0, assocSet inner tl v) :: rest
    else (n0, inner) :: refMapSet rest nm tl v

/-- Apply the reference projection writes collected by the checks, in
order. -/
def applyRefUpdates (m : List (String × List (String × ProjValue)))
    (ups : List (String × String × ProjValue)) :
    List (String × List (String × ProjValue)) :=
  ups.foldl (fun acc u => refMapSet acc u.1 u.2.1 u.2.2) m

/-- The validation loop of fields(): each key is normalized
(`'.'.join(key.split('__'))`) and checked; the first failing key raises. -/
def validateKwargs (k : DocKlass) : List (String × ProjValue) → Except String (List CheckResult)
  | [] => .ok []
  | (key, value) :: rest =>
    match checkValidFieldNameToProject k (underscoreToDot key) value with
    | .error e => .error e
    | .ok c =>
      match validateKwargs k rest with
      | .error e => .error e
      | .ok cs => .ok (c :: cs)

/-- Sort key used when fields() sorts the cleaned pairs by projection value
(CPython compares the EXCLUDE and ONLY integer constants 0 and 1; slice
dictionaries are given a separate key). -/
def projValueKey : ProjValue → Nat
  | .exclude => 0
  | .only => 1
  | .sliceSpec _ => 2

/-- Stable insertion step for the sort by projection value. -/
def insertByValue (x : String × ProjValue) :
    List (String × ProjValue) → List (String × ProjValue)
  | [] => [x]
  | y :: ys =>
    if projValueKey x.2 ≤ projValueKey y.2 then x :: y :: ys
    else y :: insertByValue x ys

/-- Stable sort of the cleaned pairs by projection value, the
`sorted(cleaned_fields, key=operator.itemgetter(1))` of fields(). -/
def sortByValue (l : List (String × ProjValue)) : List (String × ProjValue) :=
  l.foldr insertByValue []

/-- Grouping of adjacent pairs with the same projection value, the
`itertools.groupby(fields, lambda x: x[1])` of fields(). -/
def groupByValue : List (String × ProjValue) → List (ProjValue × List String)
  | [] => []
  | (n, v) :: rest =>
    match groupByValue rest with
    | [] => [(v, [n])]
    | (v0, g) :: gs =>
      if v = v0 then (v, n :: g) :: gs else (v, [n]) :: (v0, g) :: gs

/-- QuerySet.fields: validate every key (raising on the first invalid one),
record the reference projection writes, then group the cleaned pairs by
projection value and merge each group into _loaded_fields.  In the Python
source a failing key raises after earlier reference writes mutated the
object; the Except error models the raised exception. -/
def fieldsOp (qs : QuerySet) (only_called : Bool)
    (kwargs : List (String × ProjValue)) : Except String QuerySet :=
  match validateKwargs qs.klass kwargs with
  | .error e => .error e
  | .ok cleaned =>
    let pairs := cleaned.map (fun c => (c.name, c.value))
    let groups := groupByValue (sortByValue pairs)
    .ok { qs with
      reference_loaded_fields :=
        applyRefUpdates qs.reference_loaded_fields (cleaned.flatMap (fun c => c.refUpdates)),
      loaded_fields :=
        groups.foldl (fun acc g => qflAdd acc (qflOfList g.2 g.1 only_called)) qs.loaded_fields }

/-- First-occurrence key deduplication.  only() and exclude() build a
CPython dict keyed by field name before calling fields(); since every value
in that dict is the same constant, the dict is exactly the first-occurrence
deduplication of the key sequence paired with the constant. -/
def dedupKeys : List String → List String
  | [] => []
  | x :: xs => x :: dedupKeys (xs.filter (fun y => y != x))
termination_by l => l.length
decreasing_by
  simp only [List.length_cons]
  exact Nat.lt_succ_of_le (List.length_filter_le _ _)

/-- QuerySet.only: resolve each specification to its name, build the
ONLY-valued dict and delegate to fields() with _only_called=True. -/
def onlyOp (qs : QuerySet) (specs : List FieldSpec) : Except String QuerySet :=
  fieldsOp qs true ((dedupKeys (specs.map specName)).map (fun n => (n, ProjValue.only)))

/-- QuerySet.exclude: same as only() with the EXCLUDE value and
_only_called left False. -/
def excludeOp (qs : QuerySet) (specs : List FieldSpec) : Except String QuerySet :=
  fieldsOp qs false ((dedupKeys (specs.map specName)).map (fun n => (n, ProjValue.exclude)))

/-- QuerySet.all_fields: reset the Projection Set keeping always_include. -/
def allFieldsOp (qs : QuerySet) : QuerySet :=
  { qs with loaded_fields :=
      { fields := ∅, only_called := false,
        always_include := qs.loaded_fields.always_include } }

/-- The pymongo ASCENDING constant, the default order_by direction. -/
def ASCENDING : Int := 1

/-- A ListField instance test, the `isinstance(field_name, (ListField,))`
of order_by (it matches any ListField, whatever its base field). -/
def isListFType : FType → Bool
  | .listEmbedded _ => true
  | .listScalar => true
  | .listReference => true
  | _ => false

/-- Error message of order_by for a ListField handle (abbreviated). -/
def orderByListMsg : String :=
  "Cannot order by a list field."

/-- Error message of order_by for an undeclared field name (quoting
omitted). -/
def invalidOrderByMsg (field_name klassName : String) : String :=
  "Invalid order by field " ++ field_name ++ ": Field not found in " ++ klassName ++ "."

/-- The declared-name part of order_by: membership in the class registry,
then append (db_field, direction) to _order_fields. -/
def orderByName (qs : QuerySet) (field_name : String) (direction : Int) :
    Except String QuerySet :=
  match lookupDecl qs.klass field_name with
  | none => .error (invalidOrderByMsg field_name qs.klass.name)
  | some d => .ok { qs with order_fields := qs.order_fields ++ [(d.db_field, direction)] }

/-- QuerySet.order_by: a ListField handle is rejected first; any other
handle is replaced by its name; then the name is resolved against the
declared fields.  A plain string never reaches the ListField isinstance
test. -/
def order_by (qs : QuerySet) (field : FieldSpec) (direction : Int) :
    Except String QuerySet :=
  match field with
  | .byHandle h =>
    if isListFType h.ftype then .error orderByListMsg
    else orderByName qs h.name direction
  | .byName s => orderByName qs s direction

/-- Store calls issued by the terminal operations, as observed effects. -/
inductive StoreCall where
  | insertCall
  | updateCall (spec : List (String × Int)) (setDoc : List (String × Int)) (multi : Bool)
  | removeById (id : Int)
  | removeByFilter (spec : List (String × Int))
  | removeAll
  | findCall (spec : List (String × Int)) (sort : List (String × Int))
      (limitArg : Option Nat) (skipArg : Option Nat)
  | findOne (spec : List (String × Int))
  | countCall (spec : List (String × Int))
  | ensureIndexCall (db_field : String) (unique sparse : Bool)
deriving DecidableEq

/-- QuerySet.get_query_from_filters: `{}` for an empty filter expression.
Modelled from the spec: Q.to_query (query_builder, not part of the source
under verification) compiles the accumulated expression to a driver filter
mapping; it is modelled as the identity on the accumulated comparison
pairs, which the spec treats as a black box. -/
def get_query_from_filters (f : List (String × Int)) : List (String × Int) :=
  if f = [] then [] else f

/-- QuerySet._get_find_cursor: the driver find call with compiled filters,
sort pairs, and limit/skip passed only when truthy (a zero limit or skip is
falsy in Python and is omitted). -/
def getFindCursor (qs : QuerySet) : StoreCall :=
  .findCall (get_query_from_filters qs.filters)
    qs.order_fields
    (match qs.limitVal with
     | some l => if l = 0 then none else some l
     | none => none)
    (match qs.skipVal with
     | some s => if s = 0 then none else some s
     | none => none)

/-- Observable outcome of find_all dispatch: the QuerySet state after the
call, the to_list drain length, the store call issued and the per-call lazy
argument handed to the completion handler. -/
structure FindAllResult where
  qs : QuerySet
  length : Nat
  calls : List StoreCall
  lazyArg : Option Bool

/-- QuerySet.find_all: drain length is the set limit when one was given
(`self._limit is not None`), DEFAULT_LIMIT otherwise; the cursor is built
from the current filters; then `self._filters = {}` before to_list runs. -/
def find_all (qs : QuerySet) (lazy : Option Bool) : FindAllResult :=
  let len := match qs.limitVal with
    | some l => l
    | none => DEFAULT_LIMIT
  let cursor := getFindCursor qs
  { qs := { qs with filters := [] }, length := len, calls := [cursor], lazyArg := lazy }

/-- Observable outcome of count dispatch. -/
structure CountResult where
  qs : QuerySet
  calls : List StoreCall

/-- QuerySet.count: cursor built from current filters, then
`self._filters = {}`, then cursor.count. -/
def countOp (qs : QuerySet) : CountResult :=
  { qs := { qs with filters := [] },
    calls := [.countCall (get_query_from_filters qs.filters)] }

/-- QuerySet.transform_definition: field-handle keys are replaced by their
storage names, plain keys are kept. -/
def transform_definition (defn : List (FieldSpec × Int)) : List (String × Int) :=
  defn.map (fun p =>
    match p.1 with
    | .byHandle h => (h.db_field, p.2)
    | .byName s => (s, p.2))

/-- Observable outcome of update dispatch. -/
structure UpdateResult where
  qs : QuerySet
  calls : List StoreCall

/-- QuerySet.update: requires a callback, transforms the definition, uses
the compiled filters as the update spec when filters are present, issues a
multi update wrapped in `$set`.  The accumulated filter state is not
touched. -/
def updateOp (qs : QuerySet) (defn : List (FieldSpec × Int)) (hasCallback : Bool) :
    Except String UpdateResult :=
  if hasCallback then
    let d := transform_definition defn
    let update_filters := if qs.filters = [] then [] else get_query_from_filters qs.filters
    .ok { qs := qs, calls := [.updateCall update_filters d true] }
  else .error "The callback argument is required"

/-- A document instance as seen by remove: only its identity matters.
none models both a missing _id attribute and a falsy _id value. -/
structure Instance where
  idVal : Option Int

/-- Observable outcome of remove dispatch: state, store calls, and the
number of completion handlers registered (the supplied callback can only
ever fire through a registered handler). -/
structure RemoveResult where
  qs : QuerySet
  calls : List StoreCall
  handlers : Nat

/-- QuerySet.remove: requires a callback; with an instance, a store remove
happens only when the instance has a truthy _id (otherwise nothing at all
happens); without an instance, remove-by-filter when filters are present,
remove-all otherwise.  The accumulated filter state is not touched. -/
def removeOp (qs : QuerySet) (inst : Option Instance) (hasCallback : Bool) :
    Except String RemoveResult :=
  if hasCallback then
    match inst with
    | some i =>
      match i.idVal with
      | some idv => .ok { qs := qs, calls := [.removeById idv], handlers := 1 }
      | none => .ok { qs := qs, calls := [], handlers := 0 }
    | none =>
      if qs.filters = [] then
        .ok { qs := qs, calls := [.removeAll], handlers := 1 }
      else
        .ok { qs := qs, calls := [.removeByFilter (get_query_from_filters qs.filters)], handlers := 1 }
  else .error "The callback argument is required"

/-- QuerySet.delete: delegates to remove with no instance. -/
def deleteOp (qs : QuerySet) (hasCallback : Bool) : Except String RemoveResult :=
  removeOp qs none hasCallback

/-- Observable outcome of get dispatch. -/
structure GetResult where
  qs : QuerySet
  calls : List StoreCall

/-- QuerySet.get: requires an id or at least one keyword filter; the
find_one spec is the id equality or the compiled keyword filters.  The
accumulated filter state of the QuerySet is neither consulted nor reset. -/
def getOp (qs : QuerySet) (idArg : Option Int) (kwargs : List (String × Int)) :
    Except String GetResult :=
  if idArg = none ∧ kwargs = [] then
    .error "Either an id or a filter must be provided to get"
  else
    let spec := match idArg with
      | some i => [("_id", i)]
      | none => get_query_from_filters kwargs
    .ok { qs := qs, calls := [.findOne spec] }

/-- Errors reported by the store driver to a completion handler. -/
inductive DriverError where
  | duplicateKey (msg : String)
  | other (msg : String)
deriving DecidableEq

/-- Errors raised by the completion handlers toward the caller. -/
inductive RaisedError where
  | uniqueKeyViolation (msg : String) (klassName : String)
  | native (e : DriverError)
deriving DecidableEq

/-- QuerySet.handle_save, the insert-path completion handler: a
DuplicateKeyError is translated to UniqueKeyViolationError carrying the
document class; any other error is re-raised; on success the new identity
is assigned and the callback receives the document. -/
def handle_save (klassName : String) (result : Int) (err : Option DriverError) :
    Except RaisedError Int :=
  match err with
  | some (DriverError.duplicateKey m) => .error (.uniqueKeyViolation m klassName)
  | some e => .error (.native e)
  | none => .ok result

/-- QuerySet.handle_update, the update-by-identity completion handler of
save: any truthy error is re-raised as is; on success the callback receives
the document. -/
def handle_update (err : Option DriverError) : Except RaisedError Unit :=
  match err with
  | some e => .error (.native e)
  | none => .ok ()

/-- The branch of indexes_saved_before_save: update-by-identity with
handle_update when the document already has an identity, insert with
handle_save otherwise.  The value on success is the assigned identity on
the insert path. -/
def saveCompletion (klassName : String) (hasId : Bool) (result : Int)
    (err : Option DriverError) : Except RaisedError (Option Int) :=
  if hasId then (handle_update err).map (fun _ => none)
  else (handle_save klassName result err).map (fun i => some i)

/-- The per-document dispatch test of handle_find_all:
`(lazy is not None and not lazy) or not doc.is_lazy` decides whether
load_references is triggered for a document. -/
def shouldLoadReferences (lazy : Option Bool) (docLazy : Bool) : Bool :=
  (match lazy with
   | some l => !l
   | none => false) || !docLazy

/-- The ephemeral per-batch counters of the Reference Auto-Loader
(current_count, result_size, both set to None once the aggregate callback
fired) together with the number of times the aggregate callback has been
invoked. -/
structure BatchState where
  current_count : Option Nat
  result_size : Option Nat
  fired : Nat
deriving DecidableEq

/-- QuerySet.handle_find_all_auto_load_references, the shared per-document
completion signal: increment current_count; when it reaches result_size,
discard both counters and deliver the batch (fired counts the
deliveries).  The catch-all branch models the state after the counters were
discarded, where the Python handler would fail on None arithmetic; no
protocol trace reaches it. -/
def signalStep (s : BatchState) : BatchState :=
  match s.current_count, s.result_size with
  | some c, some n =>
    if c + 1 = n then { current_count := none, result_size := none, fired := s.fired + 1 }
    else { s with current_count := some (c + 1) }
  | _, _ => s

/-- Dispatch outcome of handle_find_all: the batch state after the
synchronous loop and the indices of the documents for which a follow-up
load_references store fetch was issued. -/
structure FindAllDispatch where
  state : BatchState
  loads : List Nat

/-- The `for doc in result` loop of handle_find_all: a document that must
load references gets a follow-up fetch registered; a lazy document invokes
the shared signal immediately and synchronously. -/
def dispatchLoop (lazy : Option Bool) :
    List Bool → Nat → BatchState → List Nat → FindAllDispatch
  | [], _, s, acc => { state := s, loads := acc }
  | dl :: rest, i, s, acc =>
    if shouldLoadReferences lazy dl then
      dispatchLoop lazy rest (i + 1) s (acc ++ [i])
    else
      dispatchLoop lazy rest (i + 1) (signalStep s) acc

/-- QuerySet.handle_find_all on a materialized batch, represented by the
is_lazy flag of each document: initialize current_count = 0 and
result_size = N; an empty batch is delivered immediately; otherwise the
document loop runs. -/
def handleFindAllStart (lazy : Option Bool) (docLazies : List Bool) : FindAllDispatch :=
  let s0 : BatchState :=
    { current_count := some 0, result_size := some docLazies.length, fired := 0 }
  if docLazies = [] then { state := { s0 with fired := 1 }, loads := [] }
  else dispatchLoop lazy docLazies 0 s0 []

/-- Completion of the outstanding reference loads, in the order given; each
completion invokes the shared signal once (the handler ignores its
arguments, so only the number of completions can matter). -/
def runCompletions (s : BatchState) (order : List Nat) : BatchState :=
  order.foldl (fun st _ => signalStep st) s

/-- The unique-or-sparse field selection of ensure_index. -/
def indexedFields (k : DocKlass) : List FieldDecl :=
  (k.fields.filter (fun p => p.2.unique || p.2.sparse)).map (fun p => p.2)

/-- Dispatch outcome of ensure_index: the store calls issued by the loop
(all of them issued up front, before any completion can arrive) and the
immediate callback(0) delivery when no field is flagged. -/
structure EnsureIndexDispatch where
  calls : List StoreCall
  immediateResult : Option Nat

/-- QuerySet.ensure_index: one ensure_index store call per unique or sparse
field, issued in a synchronous loop; callback(0) immediately when there is
none. -/
def ensure_index (k : DocKlass) : EnsureIndexDispatch :=
  let fwi := indexedFields k
  { calls := fwi.map (fun f => .ensureIndexCall f.db_field f.unique f.sparse),
    immediateResult := if fwi.isEmpty then some 0 else none }

/-- The shared state of the handle_ensure_index closures: the length of
created_indexes and the delivered count, if any. -/
structure EnsureIndexState where
  created : Nat
  delivered : Option Nat
deriving DecidableEq

/-- QuerySet.handle_ensure_index for one completion: a truthy error is
raised; otherwise the result is appended and the callback receives
total_indexes once every completion has arrived. -/
def handle_ensure_index (total : Nat) (s : EnsureIndexState) (err : Option DriverError) :
    Except DriverError EnsureIndexState :=
  match err with
  | some e => .error e
  | none =>
    let created := s.created + 1
    if created < total then .ok { created := created, delivered := s.delivered }
    else .ok { created := created, delivered := some total }

/-- Fold of the index-ensure completions in arrival order; a raised error
ends the fold (the remaining handlers can no longer change the observable
outcome: the created count stays below the total, so no delivery happens). -/
def runEnsureCompletions (total : Nat) (s : EnsureIndexState)
    (errs : List (Option DriverError)) : Except DriverError EnsureIndexState :=
  match errs with
  | [] => .ok s
  | e :: rest =>
    match handle_ensure_index total s e with
    | .error err => .error err
    | .ok s2 => runEnsureCompletions total s2 rest

/-- Field registry of an embedded or referenced author type, used by the
concrete instances below. -/
def authorType : List (String × FType) :=
  [("name", FType.scalar)]

/-- A concrete document class exercising scalar, reference and
list-of-embedded fields. -/
def tKlass : DocKlass :=
  { name := "BlogPost",
    fields := [("title", { ftype := .scalar, db_field := "title", unique := false, sparse := false }),
               ("author", { ftype := .reference, db_field := "author", unique := false, sparse := false }),
               ("comments", { ftype := .listEmbedded authorType, db_field := "comments", unique := false, sparse := false })],
    lazy := false }

/-- A concrete document class with a unique field, a sparse field and a
list field, non-lazy by default. -/
def userKlass : DocKlass :=
  { name := "User",
    fields := [("name", { ftype := .scalar, db_field := "name", unique := false, sparse := false }),
               ("email", { ftype := .scalar, db_field := "email", unique := true, sparse := false }),
               ("tags", { ftype := .listScalar, db_field := "tags", unique := false, sparse := false }),
               ("phone", { ftype := .scalar, db_field := "phone", unique := false, sparse := true })],
    lazy := false }

/-- A fresh QuerySet over the user class. -/
def userQS : QuerySet := initQuerySet userKlass

/-- The user QuerySet after a filter call. -/
def userQSFiltered : QuerySet := { userQS with filters := [("name", 1)] }

end Motorengine

section Examples
open Motorengine

example : checkValidFieldNameToProject tKlass "title" ProjValue.only
    = .ok { name := "title", value := .only, refUpdates := [] } := by rfl

example : checkValidFieldNameToProject tKlass "missing" ProjValue.only
    = .error "Invalid field missing: Field not found in BlogPost." := by rfl

example : checkValidFieldNameToProject tKlass "author.name" ProjValue.only
    = .ok { name := "author", value := .only, refUpdates := [("author", "name", .only)] } := by rfl

example : checkValidFieldNameToProject tKlass "comments.name" ProjValue.exclude
    = .ok { name := "comments.name", value := .exclude, refUpdates := [] } := by rfl

example : checkValidFieldNameToProject tKlass "title.x" ProjValue.only
    = .error "Invalid field title.x: Field not found in BlogPost." := by rfl

end Examples

namespace Motorengine

/-- C10: remove called with an instance whose identity is absent or falsy
and with a callback supplied issues no store call and registers no
completion handler, so the supplied callback can never be invoked: a silent
no-op, although omitting the callback is rejected as an error. -/
theorem C10_remove_unsaved_instance_noop (qs : QuerySet) :
    removeOp qs (some ⟨none⟩) true = .ok ⟨qs, [], 0⟩
    ∧ removeOp qs (some ⟨none⟩) false = .error "The callback argument is required" :=
  ⟨rfl, rfl⟩

/-- C8: find_all drains the cursor with length DEFAULT_LIMIT = 1000 when no
limit was ever set, and with the set limit when one was. -/
theorem C8_find_all_drain_length (qs : QuerySet) (lazy : Option Bool) :
    (qs.limitVal = none → (find_all qs lazy).length = 1000)
    ∧ (∀ n, qs.limitVal = some n → (find_all qs lazy).length = n) := by
  constructor
  · intro h
    simp [find_all, h, DEFAULT_LIMIT]
  · intro n h
    simp [find_all, h]

/-- Witness for C8 at a QuerySet with no limit and one with limit 10. -/
theorem C8_witness :
    (find_all userQS none).length = 1000
    ∧ (find_all { userQS with limitVal := some 10 } none).length = 10 :=
  ⟨(C8_find_all_drain_length userQS none).1 rfl,
   (C8_find_all_drain_length { userQS with limitVal := some 10 } none).2 10 rfl⟩

/-- C4 counterexample: on the update-by-identity path of save, a
duplicate-key driver error is re-raised as the native store error instead
of being translated to UniqueKeyViolationError, contradicting the claim for
that path. -/
theorem C4_counterexample :
    saveCompletion "User" true 0 (some (DriverError.duplicateKey "E11000 duplicate key error")) =
      .error (RaisedError.native (DriverError.duplicateKey "E11000 duplicate key error")) :=
  rfl

/-- C4 (amended): a duplicate-key store error is translated to
UniqueKeyViolationError carrying the document type on the insert path only;
on the update-by-identity path it is re-raised as the native error. -/
theorem C4_amended (k m : String) (r : Int) :
    saveCompletion k false r (some (DriverError.duplicateKey m)) =
      .error (RaisedError.uniqueKeyViolation m k)
    ∧ saveCompletion k true r (some (DriverError.duplicateKey m)) =
      .error (RaisedError.native (DriverError.duplicateKey m)) :=
  ⟨rfl, rfl⟩

/-- C1 counterexample: update executed on a QuerySet with non-empty filter
state leaves the filter state unchanged and non-empty, contradicting the
claim that every terminal read/delete/update operation resets it. -/
theorem C1_counterexample :
    Except.map (fun r => r.qs.filters) (updateOp userQSFiltered [(.byName "email", 2)] true) =
      .ok [("name", 1)]
    ∧ ([("name", 1)] : List (String × Int)) ≠ [] :=
  ⟨rfl, by decide⟩

/-- C1 (amended): find_all and count reset the accumulated filter state to
empty immediately after building their cursor; update, remove, delete and
get leave the filter state unchanged (get does not even consult it). -/
theorem C1_amended (qs : QuerySet) (lazy : Option Bool) (defn : List (FieldSpec × Int))
    (inst : Option Instance) (i : Int) (kw : List (String × Int))
    (x : String × Int) (kws : List (String × Int)) :
    (find_all qs lazy).qs.filters = []
    ∧ (countOp qs).qs.filters = []
    ∧ Except.map (fun r => r.qs.filters) (updateOp qs defn true) = .ok qs.filters
    ∧ Except.map (fun r => r.qs.filters) (removeOp qs inst true) = .ok qs.filters
    ∧ Except.map (fun r => r.qs.filters) (deleteOp qs true) = .ok qs.filters
    ∧ Except.map (fun r => r.qs.filters) (getOp qs (some i) kw) = .ok qs.filters
    ∧ Except.map (fun r => r.qs.filters) (getOp qs none (x :: kws)) = .ok qs.filters := by
  refine ⟨rfl, rfl, rfl, ?_, ?_, ?_, ?_⟩
  · cases inst with
    | none =>
      by_cases hf : qs.filters = [] <;> simp [removeOp, hf, Except.map]
    | some inst2 =>
      cases hi : inst2.idVal <;> simp [removeOp, hi, Except.map]
  · by_cases hf : qs.filters = [] <;> simp [deleteOp, removeOp, hf, Except.map]
  · simp [getOp, Except.map]
  · simp [getOp, Except.map]

/-- C5 counterexample: with the per-call lazy argument supplied as true and
a single document whose type default is non-lazy, handle_find_all still
issues a follow-up load_references fetch for that document, contradicting
the claim that a supplied lazy argument overrides the type default and that
lazy resolution triggers no follow-up fetch. -/
theorem C5_counterexample :
    shouldLoadReferences (some true) false = true
    ∧ (handleFindAllStart (some true) [false]).loads = [0] :=
  ⟨rfl, rfl⟩

/-- Iterated application of the shared per-document completion signal. -/
def applyK : Nat → BatchState → BatchState
  | 0, s => s
  | k + 1, s => applyK k (signalStep s)

lemma runCompletions_eq_applyK (order : List Nat) (s : BatchState) :
    runCompletions s order = applyK order.length s := by
  induction order generalizing s with
  | nil => rfl
  | cons a rest ih =>
    have h1 : runCompletions s (a :: rest) = runCompletions (signalStep s) rest := rfl
    rw [h1, ih]
    rfl

lemma countP_partition {α : Type} (p : α → Bool) (l : List α) :
    l.length = l.countP p + l.countP (fun a => !p a) := by
  induction l with
  | nil => rfl
  | cons a rest ih =>
    simp only [List.length_cons, List.countP_cons, ih]
    cases h : p a <;> simp [h] <;> omega

lemma dispatchLoop_state (lazy : Option Bool) (dls : List Bool) :
    ∀ (i : Nat) (s : BatchState) (acc : List Nat),
      (dispatchLoop lazy dls i s acc).state =
        applyK (dls.countP (fun dl => !shouldLoadReferences lazy dl)) s := by
  induction dls with
  | nil => intro i s acc; rfl
  | cons dl rest ih =>
    intro i s acc
    by_cases h : shouldLoadReferences lazy dl = true
    · simp [dispatchLoop, h, ih, List.countP_cons]
    · have hb : shouldLoadReferences lazy dl = false := by
        cases hd : shouldLoadReferences lazy dl
        · rfl
        · exact absurd hd h
      have h1 : dispatchLoop lazy (dl :: rest) i s acc =
          dispatchLoop lazy rest (i + 1) (signalStep s) acc := by
        simp [dispatchLoop, hb]
      have h2 : (dl :: rest).countP (fun d => !shouldLoadReferences lazy d) =
          rest.countP (fun d => !shouldLoadReferences lazy d) + 1 := by
        simp [List.countP_cons, hb]
      rw [h1, ih, h2]
      rfl

lemma dispatchLoop_loads_length (lazy : Option Bool) (dls : List Bool) :
    ∀ (i : Nat) (s : BatchState) (acc : List Nat),
      (dispatchLoop lazy dls i s acc).loads.length =
        acc.length + dls.countP (fun dl => shouldLoadReferences lazy dl) := by
  induction dls with
  | nil => intro i s acc; simp [dispatchLoop]
  | cons dl rest ih =>
    intro i s acc
    by_cases h : shouldLoadReferences lazy dl = true
    · simp [dispatchLoop, h, ih, List.countP_cons]
      omega
    · have hb : shouldLoadReferences lazy dl = false := by
        cases hd : shouldLoadReferences lazy dl
        · rfl
        · exact absurd hd h
      simp [dispatchLoop, hb, ih, List.countP_cons]

lemma handleFindAllStart_state (lazy : Option Bool) (dls : List Bool) (h : dls ≠ []) :
    (handleFindAllStart lazy dls).state =
      applyK (dls.countP (fun dl => !shouldLoadReferences lazy dl))
        { current_count := some 0, result_size := some dls.length, fired := 0 } := by
  simp [handleFindAllStart, h, dispatchLoop_state]

lemma handleFindAllStart_loads_length (lazy : Option Bool) (dls : List Bool) :
    (handleFindAllStart lazy dls).loads.length =
      dls.countP (fun dl => shouldLoadReferences lazy dl) := by
  by_cases h : dls = []
  · subst h; rfl
  · simp [handleFindAllStart, h, dispatchLoop_loads_length]

lemma applyK_no_fire (k : Nat) : ∀ (c n f : Nat), c + k < n →
    applyK k { current_count := some c, result_size := some n, fired := f } =
      { current_count := some (c + k), result_size := some n, fired := f } := by
  induction k with
  | zero => intro c n f _; rfl
  | succ k ih =>
    intro c n f h
    have h1 : ¬ (c + 1 = n) := by omega
    have hs : signalStep { current_count := some c, result_size := some n, fired := f } =
        { current_count := some (c + 1), result_size := some n, fired := f } := by
      simp [signalStep, h1]
    have h0 : applyK (k + 1) { current_count := some c, result_size := some n, fired := f } =
        applyK k (signalStep { current_count := some c, result_size := some n, fired := f }) := rfl
    rw [h0, hs, ih (c + 1) n f (by omega)]
    have h2 : c + 1 + k = c + (k + 1) := by omega
    rw [h2]

lemma applyK_fire (k : Nat) : ∀ (c f : Nat),
    applyK (k + 1) { current_count := some c, result_size := some (c + k + 1), fired := f } =
      { current_count := none, result_size := none, fired := f + 1 } := by
  induction k with
  | zero =>
    intro c f
    have h0 : applyK 1 { current_count := some c, result_size := some (c + 0 + 1), fired := f } =
        signalStep { current_count := some c, result_size := some (c + 0 + 1), fired := f } := rfl
    rw [h0]
    simp [signalStep]
  | succ k ih =>
    intro c f
    have h1 : ¬ (c + 1 = c + (k + 1) + 1) := by omega
    have hs : signalStep { current_count := some c, result_size := some (c + (k + 1) + 1), fired := f } =
        { current_count := some (c + 1), result_size := some (c + (k + 1) + 1), fired := f } := by
      simp [signalStep, h1]
    have h0 : applyK (k + 1 + 1) { current_count := some c, result_size := some (c + (k + 1) + 1), fired := f } =
        applyK (k + 1) (signalStep { current_count := some c, result_size := some (c + (k + 1) + 1), fired := f }) := rfl
    rw [h0, hs]
    have h2 : c + (k + 1) + 1 = (c + 1) + k + 1 := by omega
    rw [h2, ih (c + 1) f]

/-- C5 (amended): the per-call lazy argument forces reference loading for
every document when supplied as false; when it is unset or supplied as
true, the document type default alone decides, so lazy=true does not
suppress loading for a non-lazy type; and follow-up fetches are issued for
exactly as many documents as have a true dispatch test (lazy documents get
the immediate synchronous signal, no fetch). -/
theorem C5_amended (docLazy : Bool) (lazy : Option Bool) (dls : List Bool) :
    shouldLoadReferences (some false) docLazy = true
    ∧ shouldLoadReferences none docLazy = !docLazy
    ∧ shouldLoadReferences (some true) docLazy = !docLazy
    ∧ (handleFindAllStart lazy dls).loads.length =
        dls.countP (fun dl => shouldLoadReferences lazy dl) :=
  ⟨rfl, rfl, rfl, handleFindAllStart_loads_length lazy dls⟩

/-- C2: for a batch of N documents of which K get a follow-up reference
load and N minus K signal immediately, the aggregate callback fires exactly
once, exactly when the shared counter reaches N, whatever the completion
order of the K loads: after all completions the delivery count is one, and
after every proper prefix of the completions it is zero. -/
theorem C2_batch_delivery (lazy : Option Bool) (docLazies : List Bool) (order : List Nat)
    (hperm : order.Perm (handleFindAllStart lazy docLazies).loads) :
    (runCompletions (handleFindAllStart lazy docLazies).state order).fired = 1
    ∧ ∀ pre, pre <+: order → pre.length < order.length →
        (runCompletions (handleFindAllStart lazy docLazies).state pre).fired = 0 := by
  have hK : (handleFindAllStart lazy docLazies).loads.length =
      docLazies.countP (fun dl => shouldLoadReferences lazy dl) :=
    handleFindAllStart_loads_length lazy docLazies
  have horder : order.length = docLazies.countP (fun dl => shouldLoadReferences lazy dl) := by
    rw [hperm.length_eq, hK]
  have hNK : docLazies.length =
      docLazies.countP (fun dl => shouldLoadReferences lazy dl) +
        docLazies.countP (fun dl => !shouldLoadReferences lazy dl) :=
    countP_partition _ docLazies
  by_cases hnil : docLazies = []
  · subst hnil
    have horder0 : order = [] := by
      apply List.length_eq_zero.mp
      simpa using horder
    subst horder0
    refine ⟨rfl, ?_⟩
    intro pre hp hlt
    have hpre : pre = [] := List.prefix_nil.mp hp
    subst hpre
    simp at hlt
  · have hstate := handleFindAllStart_state lazy docLazies hnil
    have hpos : 0 < docLazies.length := List.length_pos.mpr hnil
    by_cases hK0 : docLazies.countP (fun dl => shouldLoadReferences lazy dl) = 0
    · have horder0 : order = [] := by
        apply List.length_eq_zero.mp
        omega
      subst horder0
      refine ⟨?_, ?_⟩
      · have h1 : runCompletions (handleFindAllStart lazy docLazies).state [] =
            (handleFindAllStart lazy docLazies).state := rfl
        rw [h1, hstate]
        have himm : docLazies.countP (fun dl => !shouldLoadReferences lazy dl) =
            docLazies.length := by omega
        rw [himm]
        have hf := applyK_fire (docLazies.length - 1) 0 0
        have e1 : docLazies.length - 1 + 1 = docLazies.length := by omega
        have e2 : 0 + (docLazies.length - 1) + 1 = docLazies.length := by omega
        rw [e1, e2] at hf
        rw [hf]
      · intro pre hp hlt
        have hpre : pre = [] := List.prefix_nil.mp hp
        subst hpre
        simp at hlt
    · refine ⟨?_, ?_⟩
      · rw [runCompletions_eq_applyK, horder, hstate]
        rw [applyK_no_fire _ 0 docLazies.length 0 (by omega), Nat.zero_add]
        have hf := applyK_fire (docLazies.countP (fun dl => shouldLoadReferences lazy dl) - 1)
          (docLazies.countP (fun dl => !shouldLoadReferences lazy dl)) 0
        have e1 : docLazies.countP (fun dl => shouldLoadReferences lazy dl) - 1 + 1 =
            docLazies.countP (fun dl => shouldLoadReferences lazy dl) := by omega
        have e2 : docLazies.countP (fun dl => !shouldLoadReferences lazy dl) +
              (docLazies.countP (fun dl => shouldLoadReferences lazy dl) - 1) + 1 =
            docLazies.length := by omega
        rw [e1, e2] at hf
        rw [hf]
      · intro pre hp hlt
        rw [runCompletions_eq_applyK, hstate]
        rw [applyK_no_fire _ 0 docLazies.length 0 (by omega), Nat.zero_add]
        rw [applyK_no_fire pre.length _ docLazies.length 0 (by omega)]

/-- Witness for C2: a three-document batch with two follow-up loads
completing in reversed order fires the aggregate callback exactly once. -/
theorem C2_witness :
    ([2, 0] : List Nat).Perm (handleFindAllStart none [false, true, false]).loads
    ∧ ((runCompletions (handleFindAllStart none [false, true, false]).state [2, 0]).fired = 1
       ∧ ∀ pre, pre <+: [2, 0] → pre.length < ([2, 0] : List Nat).length →
          (runCompletions (handleFindAllStart none [false, true, false]).state pre).fired = 0) :=
  ⟨by decide, C2_batch_delivery none [false, true, false] [2, 0] (by decide)⟩

/-- C6 counterexample: order_by given the declared logical name of a
list-typed field (the string, not the field handle) succeeds and appends
the sort pair, contradicting the claim that every field specification
denoting a list-typed field fails. -/
theorem C6_counterexample :
    Except.map (fun q => q.order_fields) (order_by userQS (.byName "tags") ASCENDING) =
      .ok [("tags", 1)] :=
  rfl

/-- C6 (amended): order_by fails synchronously, with no store call, when
given a list-typed field handle object, and when the field name is not
declared on the document type; a list-typed field given by its declared
string name is accepted. -/
theorem C6_amended (qs : QuerySet) (h : FieldHandle) (s : String) (dir : Int)
    (hl : isListFType h.ftype = true) (hnd : (lookupDecl qs.klass s).isNone = true) :
    order_by qs (.byHandle h) dir = .error orderByListMsg
    ∧ order_by qs (.byName s) dir = .error (invalidOrderByMsg s qs.klass.name) := by
  constructor
  · simp [order_by, hl]
  · have hn : lookupDecl qs.klass s = none := Option.isNone_iff_eq_none.mp hnd
    simp [order_by, orderByName, hn]

/-- Witness for C6 at a list-typed field handle and an undeclared name. -/
theorem C6_witness :
    (isListFType FType.listScalar = true ∧ (lookupDecl userQS.klass "missing").isNone = true)
    ∧ (order_by userQS (.byHandle ⟨"tags", "tags", FType.listScalar⟩) 1 = .error orderByListMsg
       ∧ order_by userQS (.byName "missing") 1 = .error (invalidOrderByMsg "missing" userQS.klass.name)) :=
  ⟨⟨rfl, rfl⟩, C6_amended userQS ⟨"tags", "tags", FType.listScalar⟩ "missing" 1 rfl rfl⟩

/-- C9 counterexample: with two flagged fields, both index-ensure store
calls are issued by the synchronous dispatch loop; the issued call list is
a function of the document class alone, so a failure of the first
completion cannot abort the second index creation — the error is only
raised by the completion handler, with both creations already under way. -/
theorem C9_counterexample :
    (ensure_index userKlass).calls =
      [.ensureIndexCall "email" true false, .ensureIndexCall "phone" false true]
    ∧ runEnsureCompletions 2 { created := 0, delivered := none }
        [some (DriverError.other "index build failed"), none] =
      .error (DriverError.other "index build failed") :=
  ⟨rfl, rfl⟩

lemma runEnsure_none_lt (total : Nat) : ∀ (errs : List (Option DriverError)) (c : Nat)
    (d : Option Nat), (∀ x ∈ errs, x = none) → c + errs.length < total →
    runEnsureCompletions total { created := c, delivered := d } errs =
      .ok { created := c + errs.length, delivered := d } := by
  intro errs
  induction errs with
  | nil => intro c d _ _; simp [runEnsureCompletions]
  | cons x rest ih =>
    intro c d hall hlt
    have hx : x = none := hall x (by simp)
    subst hx
    have hc1 : c + 1 < total := by
      simp only [List.length_cons] at hlt
      omega
    have hstep : handle_ensure_index total { created := c, delivered := d } none =
        .ok { created := c + 1, delivered := d } := by
      simp [handle_ensure_index, hc1]
    have h1 : runEnsureCompletions total { created := c, delivered := d } (none :: rest) =
        runEnsureCompletions total { created := c + 1, delivered := d } rest := by
      simp [runEnsureCompletions, hstep]
    rw [h1, ih (c + 1) d (fun x hx => hall x (by simp [hx]))
      (by simp only [List.length_cons] at hlt; omega)]
    have h2 : c + 1 + rest.length = c + (rest.length + 1) := by omega
    simp [h2]

lemma runEnsure_none_exact (total : Nat) : ∀ (errs : List (Option DriverError)) (c : Nat)
    (d : Option Nat), (∀ x ∈ errs, x = none) → 0 < errs.length → c + errs.length = total →
    runEnsureCompletions total { created := c, delivered := d } errs =
      .ok { created := total, delivered := some total } := by
  intro errs
  induction errs with
  | nil => intro c d _ h0 _; simp at h0
  | cons x rest ih =>
    intro c d hall _ htot
    have hx : x = none := hall x (by simp)
    subst hx
    cases hr : rest with
    | nil =>
      subst hr
      have hc : c + 1 = total := by
        simp only [List.length_cons, List.length_nil] at htot
        omega
      have hstep : handle_ensure_index total { created := c, delivered := d } none =
          .ok { created := total, delivered := some total } := by
        simp [handle_ensure_index, hc]
      simp [runEnsureCompletions, hstep]
    | cons y rest2 =>
      have hc1 : c + 1 < total := by
        subst hr
        simp only [List.length_cons] at htot
        omega
      have hstep : handle_ensure_index total { created := c, delivered := d } none =
          .ok { created := c + 1, delivered := d } := by
        simp [handle_ensure_index, hc1]
      have h1 : runEnsureCompletions total { created := c, delivered := d } (none :: rest) =
          runEnsureCompletions total { created := c + 1, delivered := d } rest := by
        simp [runEnsureCompletions, hstep]
      rw [← hr, h1]
      exact ih (c + 1) d (fun x hx => hall x (by simp [hx]))
        (by subst hr; simp) (by simp only [List.length_cons] at htot; omega)

lemma runEnsure_error (total : Nat) : ∀ (pre : List (Option DriverError)) (c : Nat)
    (d : Option Nat) (e : DriverError) (post : List (Option DriverError)),
    (∀ x ∈ pre, x = none) → c + pre.length < total →
    runEnsureCompletions total { created := c, delivered := d } (pre ++ some e :: post) =
      .error e := by
  intro pre
  induction pre with
  | nil =>
    intro c d e post _ _
    simp [runEnsureCompletions, handle_ensure_index]
  | cons x rest ih =>
    intro c d e post hall hlt
    have hx : x = none := hall x (by simp)
    subst hx
    have hc1 : c + 1 < total := by
      simp only [List.length_cons] at hlt
      omega
    have hstep : handle_ensure_index total { created := c, delivered := d } none =
        .ok { created := c + 1, delivered := d } := by
      simp [handle_ensure_index, hc1]
    have h1 : runEnsureCompletions total { created := c, delivered := d }
          ((none :: rest) ++ some e :: post) =
        runEnsureCompletions total { created := c + 1, delivered := d } (rest ++ some e :: post) := by
      simp [runEnsureCompletions, hstep]
    rw [h1]
    exact ih (c + 1) d e post (fun x hx => hall x (by simp [hx]))
      (by simp only [List.length_cons] at hlt; omega)

/-- C9 (amended): ensure_index issues one index-ensure store call per field
flagged unique or sparse, all of them up front; it delivers 0 immediately
with no store call when none is flagged; the continuation receives the
total count exactly when all completions have succeeded and not before; and
a failing completion raises its error, which prevents the count from ever
being delivered, though it does not retract the already-issued calls. -/
theorem C9_amended (k : DocKlass) (errs pre post : List (Option DriverError))
    (e : DriverError)
    (hsucc : ∀ x ∈ errs, x = none) (herrs : errs.length = (indexedFields k).length)
    (hpre : ∀ x ∈ pre, x = none) (hprelen : pre.length < (indexedFields k).length) :
    (ensure_index k).calls.length = (indexedFields k).length
    ∧ ((indexedFields k).isEmpty = true →
        (ensure_index k).immediateResult = some 0 ∧ (ensure_index k).calls = [])
    ∧ ((indexedFields k).isEmpty = false → (ensure_index k).immediateResult = none)
    ∧ (0 < (indexedFields k).length →
        runEnsureCompletions (indexedFields k).length { created := 0, delivered := none } errs =
          .ok { created := (indexedFields k).length, delivered := some (indexedFields k).length })
    ∧ (∀ m, m < (indexedFields k).length →
        runEnsureCompletions (indexedFields k).length { created := 0, delivered := none }
            (List.replicate m none) =
          .ok { created := m, delivered := none })
    ∧ runEnsureCompletions (indexedFields k).length { created := 0, delivered := none }
        (pre ++ some e :: post) = .error e := by
  refine ⟨?_, ?_, ?_, ?_, ?_, ?_⟩
  · simp [ensure_index]
  · intro h
    have h0 : indexedFields k = [] := by
      simpa using h
    simp [ensure_index, h0]
  · intro h
    simp [ensure_index, h]
  · intro hpos
    have := runEnsure_none_exact (indexedFields k).length errs 0 none hsucc
      (by omega) (by omega)
    simpa using this
  · intro m hm
    have hall : ∀ x ∈ List.replicate m (none : Option DriverError), x = none := by
      intro x hx
      exact List.eq_of_mem_replicate hx
    have := runEnsure_none_lt (indexedFields k).length (List.replicate m none) 0 none hall
      (by simp; omega)
    simpa using this
  · exact runEnsure_error (indexedFields k).length pre 0 none e post hpre (by omega)

/-- Witness for C9 at the user class (unique email, sparse phone): two
calls, success trace delivers 2, one-completion prefix delivers nothing,
and a failing first completion raises. -/
theorem C9_witness :
    ((∀ x ∈ ([none, none] : List (Option DriverError)), x = none)
     ∧ ([none, none] : List (Option DriverError)).length = (indexedFields userKlass).length
     ∧ (∀ x ∈ ([] : List (Option DriverError)), x = none)
     ∧ ([] : List (Option DriverError)).length < (indexedFields userKlass).length)
    ∧ ((ensure_index userKlass).calls.length = (indexedFields userKlass).length
       ∧ ((indexedFields userKlass).isEmpty = true →
           (ensure_index userKlass).immediateResult = some 0 ∧ (ensure_index userKlass).calls = [])
       ∧ ((indexedFields userKlass).isEmpty = false →
           (ensure_index userKlass).immediateResult = none)
       ∧ (0 < (indexedFields userKlass).length →
           runEnsureCompletions (indexedFields userKlass).length
               { created := 0, delivered := none } [none, none] =
             .ok { created := (indexedFields userKlass).length,
                   delivered := some (indexedFields userKlass).length })
       ∧ (∀ m, m < (indexedFields userKlass).length →
           runEnsureCompletions (indexedFields userKlass).length
               { created := 0, delivered := none } (List.replicate m none) =
             .ok { created := m, delivered := none })
       ∧ runEnsureCompletions (indexedFields userKlass).length
           { created := 0, delivered := none }
           ([] ++ some (DriverError.other "index build failed") :: [none]) =
         .error (DriverError.other "index build failed")) :=
  ⟨⟨by decide, by decide, by decide, by decide⟩,
   C9_amended userKlass [none, none] [] [none] (DriverError.other "index build failed")
     (by decide) (by decide) (by decide) (by decide)⟩

lemma checkWalk_error_indep (root : DocKlass) (f : String) (v v' : ProjValue) :
    ∀ (comps : List String) (head : List String) (obj : Option (List (String × FType)))
      (m : String), checkWalk root f v comps head obj = .error m →
      checkWalk root f v' comps head obj = .error m := by
  intro comps
  induction comps with
  | nil => intro head obj m h; simp [checkWalk] at h
  | cons c rest ih =>
    intro head obj m h
    by_cases hstop : c = "" ∧ rest = []
    · simp [checkWalk, hstop] at h
    · simp only [checkWalk, if_neg hstop] at h ⊢
      cases obj with
      | none => exact h
      | some reg =>
        cases hlk : lookupField reg c with
        | none => simp [hlk] at h ⊢; exact h
        | some ft =>
          simp only [hlk] at h ⊢
          cases ft with
          | scalar => exact ih _ _ _ h
          | embedded fs => exact ih _ _ _ h
          | listEmbedded fs => exact ih _ _ _ h
          | listScalar => exact ih _ _ _ h
          | listReference => simp at h
          | reference => simp at h

lemma checkField_error_indep (k : DocKlass) (f : String) (v v' : ProjValue) (m : String)
    (h : checkValidFieldNameToProject k f v = .error m) :
    checkValidFieldNameToProject k f v' = .error m := by
  by_cases hfast : containsDot f = false ∧ (f = "_id" ∨ (lookupField (registryOf k) f).isSome)
  · simp [checkValidFieldNameToProject, hfast] at h
  · simp only [checkValidFieldNameToProject, if_neg hfast] at h ⊢
    exact checkWalk_error_indep k f v v' _ _ _ m h

lemma validateKwargs_error (k : DocKlass) :
    ∀ (kwargs : List (String × ProjValue)) (key : String) (value : ProjValue) (msg : String),
      (key, value) ∈ kwargs →
      checkValidFieldNameToProject k (underscoreToDot key) value = .error msg →
      ∃ m, validateKwargs k kwargs = .error m := by
  intro kwargs
  induction kwargs with
  | nil => intro key value msg hmem _; cases hmem
  | cons kv rest ih =>
    intro key value msg hmem h
    cases hchk : checkValidFieldNameToProject k (underscoreToDot kv.1) kv.2 with
    | error e =>
      refine ⟨e, ?_⟩
      simp [validateKwargs, hchk]
    | ok c =>
      rcases List.mem_cons.mp hmem with hhead | htail
      · exfalso
        rw [← hhead] at hchk
        rw [hchk] at h
        cases h
      · obtain ⟨m, hm⟩ := ih key value msg htail h
        refine ⟨m, ?_⟩
        simp [validateKwargs, hchk, hm]

lemma mem_dedupKeys_iff : ∀ (l : List String) (k : String), k ∈ dedupKeys l ↔ k ∈ l := by
  have main : ∀ (n : Nat) (l : List String), l.length ≤ n →
      ∀ k, (k ∈ dedupKeys l ↔ k ∈ l) := by
    intro n
    induction n with
    | zero =>
      intro l hl k
      have : l = [] := List.length_eq_zero.mp (Nat.le_zero.mp hl)
      subst this
      simp [dedupKeys]
    | succ n ih =>
      intro l hl k
      cases l with
      | nil => simp [dedupKeys]
      | cons x xs =>
        have hx : dedupKeys (x :: xs) = x :: dedupKeys (xs.filter (fun y => y != x)) := by
          simp [dedupKeys]
        rw [hx]
        have hlen : (xs.filter (fun y => y != x)).length ≤ n := by
          have h1 : (xs.filter (fun y => y != x)).length ≤ xs.length :=
            List.length_filter_le _ _
          simp only [List.length_cons] at hl
          omega
        by_cases hk : k = x
        · subst hk; simp
        · simp only [List.mem_cons, hk, false_or]
          rw [ih _ hlen k]
          simp [List.mem_filter, hk]
  intro l k
  exact main l.length l (Nat.le_refl _) k

/-- Composite pipeline: a projection call followed by find_all; the Python
user writes qs.fields(...).find_all(...), and a raised projection error
propagates before find_all can run. -/
def fieldsThenFindAll (qs : QuerySet) (only_called : Bool)
    (kwargs : List (String × ProjValue)) (lazy : Option Bool) :
    Except String FindAllResult :=
  (fieldsOp qs only_called kwargs).map (fun q => find_all q lazy)

/-- The store calls actually issued by a possibly-failed pipeline: none
when the pipeline raised before dispatch. -/
def issuedStoreCalls : Except String FindAllResult → List StoreCall
  | .error _ => []
  | .ok r => r.calls

/-- C3: a field specification whose path fails to resolve (some component
is not a declared field of the type reached at that point, which is
exactly when the projection check reports an error) makes fields() raise
synchronously, so the composite with find_all issues zero store calls, and
makes only() and exclude() raise synchronously as well. -/
theorem C3_projection_error_before_store (qs : QuerySet) (only_called : Bool)
    (lazy : Option Bool) (kwargs : List (String × ProjValue))
    (key : String) (value : ProjValue) (msg : String)
    (h : checkValidFieldNameToProject qs.klass (underscoreToDot key) value = .error msg) :
    ((key, value) ∈ kwargs →
      (∃ m, fieldsOp qs only_called kwargs = .error m)
      ∧ issuedStoreCalls (fieldsThenFindAll qs only_called kwargs lazy) = [])
    ∧ (∀ specs : List FieldSpec, key ∈ specs.map specName →
        ∃ m, onlyOp qs specs = .error m)
    ∧ (∀ specs : List FieldSpec, key ∈ specs.map specName →
        ∃ m, excludeOp qs specs = .error m) := by
  refine ⟨?_, ?_, ?_⟩
  · intro hmem
    obtain ⟨m, hm⟩ := validateKwargs_error qs.klass kwargs key value msg hmem h
    have hf : fieldsOp qs only_called kwargs = .error m := by
      simp [fieldsOp, hm]
    refine ⟨⟨m, hf⟩, ?_⟩
    simp [fieldsThenFindAll, hf, issuedStoreCalls, Except.map]
  · intro specs hmem
    have hdict : (key, ProjValue.only) ∈
        (dedupKeys (specs.map specName)).map (fun n => (n, ProjValue.only)) := by
      have : key ∈ dedupKeys (specs.map specName) :=
        (mem_dedupKeys_iff _ key).mpr hmem
      exact List.mem_map_of_mem _ this
    have h2 : checkValidFieldNameToProject qs.klass (underscoreToDot key) ProjValue.only =
        .error msg := checkField_error_indep qs.klass _ value ProjValue.only msg h
    obtain ⟨m, hm⟩ := validateKwargs_error qs.klass _ key ProjValue.only msg hdict h2
    exact ⟨m, by simp [onlyOp, fieldsOp, hm]⟩
  · intro specs hmem
    have hdict : (key, ProjValue.exclude) ∈
        (dedupKeys (specs.map specName)).map (fun n => (n, ProjValue.exclude)) := by
      have : key ∈ dedupKeys (specs.map specName) :=
        (mem_dedupKeys_iff _ key).mpr hmem
      exact List.mem_map_of_mem _ this
    have h2 : checkValidFieldNameToProject qs.klass (underscoreToDot key) ProjValue.exclude =
        .error msg := checkField_error_indep qs.klass _ value ProjValue.exclude msg h
    obtain ⟨m, hm⟩ := validateKwargs_error qs.klass _ key ProjValue.exclude msg hdict h2
    exact ⟨m, by simp [excludeOp, fieldsOp, hm]⟩

/-- Witness for C3 at an undeclared field name on the user class. -/
theorem C3_witness :
    (checkValidFieldNameToProject userQS.klass (underscoreToDot "missing") ProjValue.only =
      .error "Invalid field missing: Field not found in User.")
    ∧ ((("missing", ProjValue.only) ∈ [("missing", ProjValue.only)] →
        (∃ m, fieldsOp userQS true [("missing", ProjValue.only)] = .error m)
        ∧ issuedStoreCalls (fieldsThenFindAll userQS true [("missing", ProjValue.only)] none) = [])
       ∧ (∀ specs : List FieldSpec, "missing" ∈ specs.map specName →
           ∃ m, onlyOp userQS specs = .error m)
       ∧ (∀ specs : List FieldSpec, "missing" ∈ specs.map specName →
           ∃ m, excludeOp userQS specs = .error m)) :=
  ⟨by decide,
   C3_projection_error_before_store userQS true none [("missing", ProjValue.only)]
     "missing" ProjValue.only "Invalid field missing: Field not found in User." (by decide)⟩

/-- The check result of a name under the ONLY value, totalized (the error
branch returns a placeholder that is only ever used under a validity
hypothesis). -/
def cleanedOnly (k : DocKlass) (n : String) : CheckResult :=
  match checkValidFieldNameToProject k (underscoreToDot n) ProjValue.only with
  | .ok c => c
  | .error _ => { name := n, value := ProjValue.only, refUpdates := [] }

lemma checkWalk_ok_value (root : DocKlass) (f : String) :
    ∀ (comps head : List String) (obj : Option (List (String × FType))) (c : CheckResult),
      checkWalk root f ProjValue.only comps head obj = .ok c →
      c.value = ProjValue.only := by
  intro comps
  induction comps with
  | nil =>
    intro head obj c h
    simp only [checkWalk, Except.ok.injEq] at h
    rw [← h]
  | cons x rest ih =>
    intro head obj c h
    by_cases hstop : x = "" ∧ rest = []
    · simp only [checkWalk, if_pos hstop, Except.ok.injEq] at h
      rw [← h]
    · simp only [checkWalk, if_neg hstop] at h
      cases obj with
      | none => cases h
      | some reg =>
        cases hlk : lookupField reg x with
        | none => simp [hlk] at h
        | some ft =>
          simp only [hlk] at h
          cases ft with
          | scalar => exact ih _ _ _ h
          | embedded fs => exact ih _ _ _ h
          | listEmbedded fs => exact ih _ _ _ h
          | listScalar => exact ih _ _ _ h
          | listReference =>
            simp only [Except.ok.injEq] at h
            rw [← h]
            unfold fillReferenceLoadedFields
            by_cases ht : rest = [] ∨ rest = [""] <;> simp [ht]
          | reference =>
            simp only [Except.ok.injEq] at h
            rw [← h]
            unfold fillReferenceLoadedFields
            by_cases ht : rest = [] ∨ rest = [""] <;> simp [ht]

lemma checkField_ok_value (k : DocKlass) (f : String) (c : CheckResult)
    (h : checkValidFieldNameToProject k f ProjValue.only = .ok c) :
    c.value = ProjValue.only := by
  by_cases hfast : containsDot f = false ∧ (f = "_id" ∨ (lookupField (registryOf k) f).isSome)
  · simp only [checkValidFieldNameToProject, if_pos hfast, Except.ok.injEq] at h
    rw [← h]
  · simp only [checkValidFieldNameToProject, if_neg hfast] at h
    exact checkWalk_ok_value k f _ _ _ c h

lemma cleanedOnly_value (k : DocKlass) (n : String) :
    (cleanedOnly k n).value = ProjValue.only := by
  unfold cleanedOnly
  cases h : checkValidFieldNameToProject k (underscoreToDot n) ProjValue.only with
  | ok c => exact checkField_ok_value k _ c h
  | error e => rfl

lemma validateKwargs_only (k : DocKlass) :
    ∀ (names : List String),
      (∀ n ∈ names, (checkValidFieldNameToProject k (underscoreToDot n) ProjValue.only).isOk = true) →
      validateKwargs k (names.map (fun n => (n, ProjValue.only))) =
        .ok (names.map (fun n => cleanedOnly k n)) := by
  intro names
  induction names with
  | nil => intro _; rfl
  | cons n rest ih =>
    intro h
    cases hc : checkValidFieldNameToProject k (underscoreToDot n) ProjValue.only with
    | error e =>
      exfalso
      have := h n (by simp)
      rw [hc] at this
      simp [Except.isOk, Except.toBool] at this
    | ok c =>
      have hco : cleanedOnly k n = c := by simp [cleanedOnly, hc]
      have hrest := ih (fun x hx => h x (by simp [hx]))
      simp [validateKwargs, hc, hrest, hco]

lemma insertByValue_const (x : String × ProjValue) (l : List (String × ProjValue))
    (hx : x.2 = ProjValue.only) (hl : ∀ p ∈ l, p.2 = ProjValue.only) :
    insertByValue x l = x :: l := by
  cases l with
  | nil => rfl
  | cons y ys =>
    have hk : projValueKey x.2 ≤ projValueKey y.2 := by
      rw [hx, hl y (by simp)]
    simp [insertByValue, hk]

lemma sortByValue_const : ∀ (l : List (String × ProjValue)),
    (∀ p ∈ l, p.2 = ProjValue.only) → sortByValue l = l := by
  intro l
  induction l with
  | nil => intro _; rfl
  | cons x xs ih =>
    intro h
    have hs : sortByValue (x :: xs) = insertByValue x (sortByValue xs) := rfl
    rw [hs, ih (fun p hp => h p (by simp [hp])),
      insertByValue_const x xs (h x (by simp)) (fun p hp => h p (by simp [hp]))]

lemma groupByValue_const : ∀ (l : List (String × ProjValue)),
    (∀ p ∈ l, p.2 = ProjValue.only) → l ≠ [] →
    groupByValue l = [(ProjValue.only, l.map Prod.fst)] := by
  intro l
  induction l with
  | nil => intro _ hne; exact absurd rfl hne
  | cons x xs ih =>
    intro h _
    obtain ⟨n, v⟩ := x
    have hv : v = ProjValue.only := h (n, v) (by simp)
    subst hv
    cases hxs : xs with
    | nil =>
      subst hxs
      simp [groupByValue]
    | cons y ys =>
      have hg := ih (fun p hp => h p (by simp [hp])) (by rw [hxs]; simp)
      rw [← hxs]
      simp [groupByValue, hg]

lemma dedupKeys_isEmpty (l : List String) : (dedupKeys l).isEmpty = l.isEmpty := by
  cases l with
  | nil => simp [dedupKeys]
  | cons x xs => simp [dedupKeys]

lemma toFinset_pairs_dedup (k : DocKlass) (l : List String) :
    ((dedupKeys l).map (fun n => ((cleanedOnly k n).name, ProjValue.only))).toFinset =
      (l.map (fun n => ((cleanedOnly k n).name, ProjValue.only))).toFinset := by
  apply Finset.ext
  intro x
  simp only [List.mem_toFinset, List.mem_map]
  constructor
  · rintro ⟨n, hn, rfl⟩
    exact ⟨n, (mem_dedupKeys_iff l n).mp hn, rfl⟩
  · rintro ⟨n, hn, rfl⟩
    exact ⟨n, (mem_dedupKeys_iff l n).mpr hn, rfl⟩

lemma fieldsOp_only_spec (qs : QuerySet) (names : List String)
    (h : ∀ n ∈ names,
      (checkValidFieldNameToProject qs.klass (underscoreToDot n) ProjValue.only).isOk = true) :
    fieldsOp qs true (names.map (fun n => (n, ProjValue.only))) =
      .ok { qs with
        reference_loaded_fields := applyRefUpdates qs.reference_loaded_fields
          ((names.map (cleanedOnly qs.klass)).flatMap (fun c => c.refUpdates)),
        loaded_fields :=
          { fields := qs.loaded_fields.fields ∪
              (names.map (fun n => ((cleanedOnly qs.klass n).name, ProjValue.only))).toFinset,
            only_called := qs.loaded_fields.only_called || !names.isEmpty,
            always_include := qs.loaded_fields.always_include } } := by
  have hv := validateKwargs_only qs.klass names h
  have hpairs : (names.map (cleanedOnly qs.klass)).map (fun c => (c.name, c.value)) =
      names.map (fun n => ((cleanedOnly qs.klass n).name, ProjValue.only)) := by
    rw [List.map_map]
    apply List.map_congr_left
    intro n _
    simp [cleanedOnly_value]
  cases hn : names with
  | nil =>
    subst hn
    simp [fieldsOp, validateKwargs, applyRefUpdates, sortByValue, groupByValue]
  | cons n0 rest =>
    rw [← hn]
    have hconst : ∀ p ∈ names.map (fun n => ((cleanedOnly qs.klass n).name, ProjValue.only)),
        p.2 = ProjValue.only := by
      intro p hp
      obtain ⟨n, _, rfl⟩ := List.mem_map.mp hp
      rfl
    have hpn : names.map (fun n => ((cleanedOnly qs.klass n).name, ProjValue.only)) ≠ [] := by
      rw [hn]; simp
    have hback :
        ((names.map (fun n => ((cleanedOnly qs.klass n).name, ProjValue.only))).map
            Prod.fst).map (fun n => (n, ProjValue.only)) =
          names.map (fun n => ((cleanedOnly qs.klass n).name, ProjValue.only)) := by
      simp [List.map_map, Function.comp]
    have hoc : (!names.isEmpty) = true := by rw [hn]; rfl
    simp only [fieldsOp, hv, hpairs, sortByValue_const _ hconst,
      groupByValue_const _ hconst hpn, List.foldl_cons, List.foldl_nil,
      qflAdd, qflOfList, hback, hoc, Finset.union_empty, Except.ok.injEq]

/-- The set of (cleaned name, ONLY) pairs contributed by an only() call. -/
def onlyNameSet (k : DocKlass) (specs : List FieldSpec) : Finset (String × ProjValue) :=
  ((specs.map specName).map (fun n => ((cleanedOnly k n).name, ProjValue.only))).toFinset

lemma onlyNameSet_append (k : DocKlass) (a b : List FieldSpec) :
    onlyNameSet k (a ++ b) = onlyNameSet k a ∪ onlyNameSet k b := by
  simp [onlyNameSet, List.map_append, List.toFinset_append]

lemma onlyOp_lf_spec (qs : QuerySet) (specs : List FieldSpec)
    (h : ∀ s ∈ specs, (checkValidFieldNameToProject qs.klass
        (underscoreToDot (specName s)) ProjValue.only).isOk = true) :
    ∃ qs2, onlyOp qs specs = .ok qs2 ∧ qs2.klass = qs.klass ∧
      qs2.loaded_fields =
        { fields := qs.loaded_fields.fields ∪ onlyNameSet qs.klass specs,
          only_called := qs.loaded_fields.only_called || !specs.isEmpty,
          always_include := qs.loaded_fields.always_include } := by
  have hN : ∀ n ∈ dedupKeys (specs.map specName),
      (checkValidFieldNameToProject qs.klass (underscoreToDot n) ProjValue.only).isOk = true := by
    intro n hn
    obtain ⟨s, hs, rfl⟩ := List.mem_map.mp ((mem_dedupKeys_iff _ n).mp hn)
    exact h s hs
  have hspec := fieldsOp_only_spec qs (dedupKeys (specs.map specName)) hN
  refine ⟨_, hspec, rfl, ?_⟩
  have he : (!(dedupKeys (specs.map specName)).isEmpty) = (!specs.isEmpty) := by
    rw [dedupKeys_isEmpty]
    cases specs <;> simp
  simp only [toFinset_pairs_dedup, he, onlyNameSet]

/-- C7: chained only() calls accumulate by union — only(a) followed by
only(b) yields the same effective Projection Set as the single call
only(a ++ b) — and repetition is idempotent: only(a) twice yields the same
effective Projection Set as only(a) once. -/
theorem C7_only_union_idempotent (qs : QuerySet) (a b : List FieldSpec)
    (ha : ∀ s ∈ a, (checkValidFieldNameToProject qs.klass
        (underscoreToDot (specName s)) ProjValue.only).isOk = true)
    (hb : ∀ s ∈ b, (checkValidFieldNameToProject qs.klass
        (underscoreToDot (specName s)) ProjValue.only).isOk = true) :
    Except.map (fun q => q.loaded_fields) ((onlyOp qs a).bind (fun q => onlyOp q b)) =
      Except.map (fun q => q.loaded_fields) (onlyOp qs (a ++ b))
    ∧ Except.map (fun q => q.loaded_fields) ((onlyOp qs a).bind (fun q => onlyOp q a)) =
      Except.map (fun q => q.loaded_fields) (onlyOp qs a) := by
  obtain ⟨qsA, hA, hkA, hlfA⟩ := onlyOp_lf_spec qs a ha
  have hbA : ∀ s ∈ b, (checkValidFieldNameToProject qsA.klass
      (underscoreToDot (specName s)) ProjValue.only).isOk = true := by
    intro s hs
    rw [hkA]
    exact hb s hs
  have haA : ∀ s ∈ a, (checkValidFieldNameToProject qsA.klass
      (underscoreToDot (specName s)) ProjValue.only).isOk = true := by
    intro s hs
    rw [hkA]
    exact ha s hs
  obtain ⟨qsAB, hAB, hkAB, hlfAB⟩ := onlyOp_lf_spec qsA b hbA
  obtain ⟨qsAA, hAA, hkAA, hlfAA⟩ := onlyOp_lf_spec qsA a haA
  have hab : ∀ s ∈ a ++ b, (checkValidFieldNameToProject qs.klass
      (underscoreToDot (specName s)) ProjValue.only).isOk = true := by
    intro s hs
    rcases List.mem_append.mp hs with h1 | h2
    · exact ha s h1
    · exact hb s h2
  obtain ⟨qsC, hC, hkC, hlfC⟩ := onlyOp_lf_spec qs (a ++ b) hab
  constructor
  · rw [hA, hC]
    have hbind : (Except.ok qsA).bind (fun q => onlyOp q b) = onlyOp qsA b := rfl
    rw [hbind, hAB]
    simp only [Except.map]
    congr 1
    rw [hlfAB, hlfA, hlfC, hkA]
    have hfields : (qs.loaded_fields.fields ∪ onlyNameSet qs.klass a) ∪ onlyNameSet qs.klass b =
        qs.loaded_fields.fields ∪ onlyNameSet qs.klass (a ++ b) := by
      rw [onlyNameSet_append, Finset.union_assoc]
    have hoc : ((qs.loaded_fields.only_called || !a.isEmpty) || !b.isEmpty) =
        (qs.loaded_fields.only_called || !(a ++ b).isEmpty) := by
      cases a <;> cases b <;> simp
    rw [← hfields, ← hoc]
  · rw [hA]
    have hbind : (Except.ok qsA).bind (fun q => onlyOp q a) = onlyOp qsA a := rfl
    rw [hbind, hAA]
    simp only [Except.map]
    congr 1
    rw [hlfAA, hlfA, hkA]
    have hfields : (qs.loaded_fields.fields ∪ onlyNameSet qs.klass a) ∪ onlyNameSet qs.klass a =
        qs.loaded_fields.fields ∪ onlyNameSet qs.klass a := by
      rw [Finset.union_assoc, Finset.union_self]
    have hoc : ((qs.loaded_fields.only_called || !a.isEmpty) || !a.isEmpty) =
        (qs.loaded_fields.only_called || !a.isEmpty) := by
      cases a <;> simp
    rw [hfields, hoc]

/-- Witness for C7 at two singleton field name lists on the user class. -/
theorem C7_witness :
    ((∀ s ∈ [FieldSpec.byName "name"], (checkValidFieldNameToProject userQS.klass
        (underscoreToDot (specName s)) ProjValue.only).isOk = true)
     ∧ (∀ s ∈ [FieldSpec.byName "email"], (checkValidFieldNameToProject userQS.klass
        (underscoreToDot (specName s)) ProjValue.only).isOk = true))
    ∧ (Except.map (fun q => q.loaded_fields)
          ((onlyOp userQS [FieldSpec.byName "name"]).bind
            (fun q => onlyOp q [FieldSpec.byName "email"])) =
        Except.map (fun q => q.loaded_fields)
          (onlyOp userQS ([FieldSpec.byName "name"] ++ [FieldSpec.byName "email"]))
       ∧ Except.map (fun q => q.loaded_fields)
          ((onlyOp userQS [FieldSpec.byName "name"]).bind
            (fun q => onlyOp q [FieldSpec.byName "name"])) =
        Except.map (fun q => q.loaded_fields) (onlyOp userQS [FieldSpec.byName "name"])) :=
  ⟨⟨by decide, by decide⟩,
   C7_only_union_idempotent userQS [FieldSpec.byName "name"] [FieldSpec.byName "email"]
     (by decide) (by decide)⟩

end Motorengine
